import Mathlib

set_option autoImplicit false

namespace ProjectAI

/-! Shallow embedding of the Project-AI core pipeline
    (request ledger, artifact generator, integration engine, council hub),
    translated from `src/app/core/ai_systems.py`, `src/app/core/access_control.py`,
    `src/app/core/council_hub.py` and `src/app/agents/codex_deus_maximus.py`.

    Python dicts keyed by strings, JSON files on disk and the sqlite-backed
    request table are all modelled as insertion-ordered association lists
    `List (String × α)` with insert-or-update (`upsert`), lookup (`aget`) and
    delete (`aremove`) mirroring `d[k] = v`, `d.get(k)` / `os.path.exists`,
    and `os.remove`. -/

/-- Lookup in an association list; returns the value of the first matching key
(Python `d.get(k)` — keys are unique because updates go through `upsert`). -/
def aget {α : Type} : List (String × α) → String → Option α
  | [], _ => none
  | (k', v) :: rest, k => if k = k' then some v else aget rest k

/-- Insert-or-update, as a Python dict assignment `d[k] = v`: an existing key is
updated in place, a new key is appended (insertion order preserved). -/
def upsert {α : Type} (m : List (String × α)) (k : String) (v : α) : List (String × α) :=
  if (aget m k).isSome then m.map (fun p => if p.1 = k then (k, v) else p)
  else m ++ [(k, v)]

/-- Delete a key, as Python `os.remove` / `del d[k]`. -/
def aremove {α : Type} (m : List (String × α)) (k : String) : List (String × α) :=
  m.filter (fun p => ¬ p.1 = k)

@[simp] theorem aget_nil {α : Type} (k : String) : aget ([] : List (String × α)) k = none := rfl

@[simp] theorem aget_cons {α : Type} (k k' : String) (v : α) (rest : List (String × α)) :
    aget ((k', v) :: rest) k = if k = k' then some v else aget rest k := rfl

theorem aget_append_of_none {α : Type} (m₁ m₂ : List (String × α)) (k : String)
    (h : aget m₁ k = none) : aget (m₁ ++ m₂) k = aget m₂ k := by
  induction m₁ with
  | nil => rfl
  | cons p rest ih =>
      obtain ⟨k', v⟩ := p
      by_cases hk : k = k'
      · rw [aget_cons, if_pos hk] at h; exact absurd h (by simp)
      · rw [aget_cons, if_neg hk] at h
        rw [List.cons_append, aget_cons, if_neg hk]
        exact ih h

theorem aget_update_map_same {α : Type} (m : List (String × α)) (k : String) (v : α)
    (h : (aget m k).isSome) :
    aget (m.map (fun p => if p.1 = k then (k, v) else p)) k = some v := by
  induction m with
  | nil => simp [aget] at h
  | cons p rest ih =>
      obtain ⟨k₀, w⟩ := p
      by_cases hk : k₀ = k
      · subst hk
        have hf : (if ((k₀, w) : String × α).1 = k₀ then (k₀, v) else (k₀, w)) = (k₀, v) := by
          simp
        rw [List.map_cons, hf, aget_cons, if_pos rfl]
      · rw [aget_cons, if_neg (fun he => hk he.symm)] at h
        rw [List.map_cons]
        simp only [if_neg hk]
        rw [aget_cons, if_neg (fun he => hk he.symm)]
        exact ih h

theorem aget_update_map_other {α : Type} (m : List (String × α)) (k k' : String) (v : α)
    (hne : k' ≠ k) :
    aget (m.map (fun p => if p.1 = k then (k, v) else p)) k' = aget m k' := by
  induction m with
  | nil => rfl
  | cons p rest ih =>
      obtain ⟨k₀, w⟩ := p
      by_cases hk : k₀ = k
      · subst hk
        have hf : (if ((k₀, w) : String × α).1 = k₀ then (k₀, v) else (k₀, w)) = (k₀, v) := by
          simp
        rw [List.map_cons, hf, aget_cons, if_neg hne, aget_cons, if_neg hne]
        exact ih
      · rw [List.map_cons]
        simp only [if_neg hk]
        by_cases hk' : k' = k₀
        · rw [aget_cons, if_pos hk', aget_cons, if_pos hk']
        · rw [aget_cons, if_neg hk', aget_cons, if_neg hk']
          exact ih

theorem aget_upsert_same {α : Type} (m : List (String × α)) (k : String) (v : α) :
    aget (upsert m k v) k = some v := by
  unfold upsert
  by_cases h : (aget m k).isSome
  · rw [if_pos h]; exact aget_update_map_same m k v h
  · rw [if_neg h]
    rw [Option.not_isSome_iff_eq_none] at h
    rw [aget_append_of_none _ _ _ h, aget_cons, if_pos rfl]

theorem aget_upsert_other {α : Type} (m : List (String × α)) (k k' : String) (v : α)
    (hne : k' ≠ k) : aget (upsert m k v) k' = aget m k' := by
  unfold upsert
  by_cases h : (aget m k).isSome
  · rw [if_pos h]; exact aget_update_map_other m k k' v hne
  · rw [if_neg h]
    induction m with
    | nil => simp [aget, hne]
    | cons p rest ih =>
        obtain ⟨k₀, w⟩ := p
        by_cases hk' : k' = k₀
        · rw [List.cons_append, aget_cons, if_pos hk', aget_cons, if_pos hk']
        · rw [List.cons_append, aget_cons, if_neg hk', aget_cons, if_neg hk']
          by_cases h₀ : k = k₀
          · rw [aget_cons, if_pos h₀] at h; exact absurd (by simp) h
          · rw [aget_cons, if_neg h₀] at h
            exact ih h

theorem aget_aremove_same {α : Type} (m : List (String × α)) (k : String) :
    aget (aremove m k) k = none := by
  induction m with
  | nil => rfl
  | cons p rest ih =>
      obtain ⟨k₀, v⟩ := p
      by_cases h : k₀ = k
      · unfold aremove
        rw [List.filter_cons]
        simp only [h, decide_not, decide_eq_true_eq]
        simpa [aremove] using ih
      · unfold aremove
        rw [List.filter_cons]
        have : (¬ (k₀, v).1 = k : Bool) = true := by
          simp only [decide_not]
          simpa using h
        simp only [this, if_pos]
        rw [aget_cons, if_neg (fun he => h he.symm)]
        simpa [aremove] using ih

theorem aget_aremove_other {α : Type} (m : List (String × α)) (k k' : String)
    (hne : k' ≠ k) : aget (aremove m k) k' = aget m k' := by
  induction m with
  | nil => rfl
  | cons p rest ih =>
      obtain ⟨k₀, v⟩ := p
      by_cases h : k₀ = k
      · subst h
        simp only [aremove, List.filter_cons] at ih ⊢
        simp only [decide_not, decide_eq_true_eq, not_true, Bool.not_true, if_neg]
        rw [aget_cons, if_neg hne]
        simpa using ih
      · unfold aremove
        rw [List.filter_cons]
        have : (¬ (k₀, v).1 = k : Bool) = true := by
          simp only [decide_not]
          simpa using h
        simp only [this, if_pos]
        by_cases hk' : k' = k₀
        · rw [aget_cons, if_pos hk', aget_cons, if_pos hk']
        · rw [aget_cons, if_neg hk', aget_cons, if_neg hk']
          simpa [aremove] using ih

/-! Request ledger (`LearningRequestManager` in `src/app/core/ai_systems.py`).

    `sha256` is Python's `hashlib.sha256(...).hexdigest()`, an external
    primitive; every definition that hashes takes it as an explicit function
    parameter `hash : String → String`, so the theorems hold for the actual
    SHA-256 function in particular.  Timestamps (`datetime.now().isoformat()`)
    and correlation ids (`uuid.uuid4().hex`) are likewise inputs.  Persistence
    (`_save_requests`) writes the in-memory state to sqlite and is the identity
    on that state, so it needs no separate model.  Telemetry (`send_event`) is
    fire-and-forget inside `try/except` and has no effect on the state. -/

/-- One learning request, as the per-id dict stored in
`LearningRequestManager.requests` (`topic`, `description`, `priority`,
`status`, `created`, plus `response`/`reason`/`correlation_id` set later). -/
structure Request where
  topic : String
  description : String
  priority : Nat
  status : String
  created : String
  response : Option String := none
  reason : Option String := none
  correlationId : Option String := none
deriving DecidableEq, Repr

/-- The in-memory state of `LearningRequestManager`: the `requests` dict, the
`black_vault` set of content hashes, and the pending contents of
`_notify_queue` (events put on the queue but not yet drained by
`_notify_worker`). -/
structure Ledger where
  requests : List (String × Request)
  blackVault : List String
  notifyQueue : List (String × Request)
deriving DecidableEq, Repr

/-- Python `set.add`: insert a hash into the black vault if not present. -/
def vaultAdd (vault : List String) (h : String) : List String :=
  if h ∈ vault then vault else vault ++ [h]

/-- Translation of `LearningRequestManager.create_request`.  Returns the new id
(or `""`) together with the successor state.  The id is
`sha256(timestamp_iso + topic)[:12]`; creation is refused for an empty topic
or description and for a description whose hash is in the black vault. -/
def createRequest (hash : String → String) (l : Ledger)
    (topic description : String) (priorityVal : Nat) (timestampIso : String) :
    String × Ledger :=
  if topic = "" ∨ description = "" then ("", l)
  else
    let reqId := (hash (timestampIso ++ topic)).take 12
    let contentHash := hash description
    if contentHash ∈ l.blackVault then ("", l)
    else
      let r : Request :=
        { topic := topic, description := description, priority := priorityVal,
          status := "pending", created := timestampIso }
      (reqId, { l with requests := upsert l.requests reqId r })

/-- Translation of `LearningRequestManager.approve_request`.  The source sets
status/response and a fresh correlation id (`corr`), then runs
`self._notify_approval_listeners(req_id, self.requests[req_id])` inside
`try/except Exception`.  No method `_notify_approval_listeners` is defined
anywhere in the repository, so that call raises `AttributeError`, which the
`except` swallows after logging — consequently nothing is ever put on
`_notify_queue`, and the queue component of the state is returned unchanged. -/
def approveRequest (l : Ledger) (reqId response corr : String) : Bool × Ledger :=
  match aget l.requests reqId with
  | none => (false, l)
  | some r =>
      let r1 := { r with status := "approved", response := some response,
                         correlationId := some corr }
      (true, { l with requests := upsert l.requests reqId r1 })

/-- Translation of `LearningRequestManager.deny_request`: sets status/reason
and, when `to_vault` is true, adds `sha256(description)` to the black vault. -/
def denyRequest (hash : String → String) (l : Ledger)
    (reqId reason : String) (toVault : Bool) : Bool × Ledger :=
  match aget l.requests reqId with
  | none => (false, l)
  | some r =>
      let r1 := { r with status := "denied", reason := some reason }
      let vault1 := if toVault then vaultAdd l.blackVault (hash r.description)
                    else l.blackVault
      (true, { l with requests := upsert l.requests reqId r1, blackVault := vault1 })

/-- A call to one of the three mutating ledger operations, with the external
inputs (timestamp, correlation id) it consumed. -/
inductive LedgerOp where
  | create (topic description : String) (priorityVal : Nat) (ts : String)
  | approve (reqId response corr : String)
  | deny (reqId reason : String) (toVault : Bool)
deriving DecidableEq, Repr

/-- State reached after one ledger operation (the returned id/Bool dropped). -/
def applyOp (hash : String → String) (l : Ledger) : LedgerOp → Ledger
  | .create topic description p ts => (createRequest hash l topic description p ts).2
  | .approve reqId response corr => (approveRequest l reqId response corr).2
  | .deny reqId reason toVault => (denyRequest hash l reqId reason toVault).2

/-- State reached after a sequence of ledger operations. -/
def applyOps (hash : String → String) (l : Ledger) (ops : List LedgerOp) : Ledger :=
  ops.foldl (applyOp hash) l

theorem mem_vaultAdd_self (vault : List String) (h : String) : h ∈ vaultAdd vault h := by
  unfold vaultAdd
  by_cases hm : h ∈ vault
  · rwa [if_pos hm]
  · rw [if_neg hm]; simp

theorem mem_vaultAdd_of_mem (vault : List String) (h h' : String) (hm : h ∈ vault) :
    h ∈ vaultAdd vault h' := by
  unfold vaultAdd
  by_cases hm' : h' ∈ vault
  · rwa [if_pos hm']
  · rw [if_neg hm']; exact List.mem_append_left _ hm

/-- No ledger operation ever removes a hash from the black vault. -/
theorem vault_monotone (hash : String → String) (l : Ledger) (op : LedgerOp)
    (h : String) (hm : h ∈ l.blackVault) : h ∈ (applyOp hash l op).blackVault := by
  cases op with
  | create topic description p ts =>
      simp only [applyOp, createRequest]
      by_cases h1 : topic = "" ∨ description = ""
      · simpa [h1] using hm
      · by_cases h2 : hash description ∈ l.blackVault
        · simpa [h1, h2] using hm
        · simpa [h1, h2] using hm
  | approve reqId response corr =>
      simp only [applyOp, approveRequest]
      cases hr : aget l.requests reqId with
      | none => simpa [hr] using hm
      | some r => simpa [hr] using hm
  | deny reqId reason toVault =>
      simp only [applyOp, denyRequest]
      cases hr : aget l.requests reqId with
      | none => simpa [hr] using hm
      | some r =>
          by_cases ht : toVault
          · simpa [hr, ht] using mem_vaultAdd_of_mem l.blackVault h (hash r.description) hm
          · simpa [hr, ht] using hm

/-- Vault membership survives any sequence of ledger operations. -/
theorem vault_monotone_ops (hash : String → String) (l : Ledger) (ops : List LedgerOp)
    (h : String) (hm : h ∈ l.blackVault) : h ∈ (applyOps hash l ops).blackVault := by
  induction ops generalizing l with
  | nil => simpa [applyOps] using hm
  | cons op rest ih =>
      have h1 := vault_monotone hash l op h hm
      simpa [applyOps] using ih (applyOp hash l op) h1

/-- Creation is a refused no-op once the description's hash is vaulted. -/
theorem create_blocked_of_vaulted (hash : String → String) (l : Ledger)
    (topic description : String) (p : Nat) (ts : String)
    (hv : hash description ∈ l.blackVault) :
    createRequest hash l topic description p ts = ("", l) := by
  unfold createRequest
  by_cases h1 : topic = "" ∨ description = ""
  · rw [if_pos h1]
  · rw [if_neg h1, if_pos hv]

/-- Denying a known request with `to_vault=true` puts the hash of its
description into the black vault. -/
theorem deny_adds_to_vault (hash : String → String) (l : Ledger)
    (reqId reason : String) (r : Request) (hr : aget l.requests reqId = some r) :
    hash r.description ∈ (denyRequest hash l reqId reason true).2.blackVault := by
  unfold denyRequest
  rw [hr]
  simpa using mem_vaultAdd_self l.blackVault (hash r.description)

/-- C1: once a request's description D has been denied with `to_vault=true`
(putting `sha256(D)` into the Black Vault), every subsequent
`create_request(topic, D)` — after any further sequence of ledger operations —
returns the empty id and leaves the ledger state unchanged, for any topic. -/
theorem vault_suppresses_create (hash : String → String) (l : Ledger)
    (reqId reason : String) (r : Request) (hr : aget l.requests reqId = some r)
    (ops : List LedgerOp) (topic : String) (p : Nat) (ts : String) :
    (createRequest hash (applyOps hash (denyRequest hash l reqId reason true).2 ops)
        topic r.description p ts).1 = "" ∧
    (createRequest hash (applyOps hash (denyRequest hash l reqId reason true).2 ops)
        topic r.description p ts).2 =
      applyOps hash (denyRequest hash l reqId reason true).2 ops := by
  have h1 := deny_adds_to_vault hash l reqId reason r hr
  have h2 := vault_monotone_ops hash _ ops _ h1
  have h3 := create_blocked_of_vaulted hash _ topic r.description p ts h2
  exact ⟨by rw [h3], by rw [h3]⟩

/-- Witness for C1 at a concrete ledger: request `r1` with description
`write hello` is denied to the vault, an unrelated create happens, and a
fresh create with the same description returns `""` without touching state. -/
theorem vault_suppresses_create_witness :
    (createRequest (fun s => s)
        (applyOps (fun s => s)
          (denyRequest (fun s => s)
            ⟨[(("r1"), ⟨"docs", "write hello", 2, "pending", "t0", none, none, none⟩)], [], []⟩
            ("r1") ("unsafe") true).2
          [LedgerOp.create ("other") ("x") 2 ("t1")])
        ("docs2") ("write hello") 2 ("t2")).1 = "" ∧
    (createRequest (fun s => s)
        (applyOps (fun s => s)
          (denyRequest (fun s => s)
            ⟨[(("r1"), ⟨"docs", "write hello", 2, "pending", "t0", none, none, none⟩)], [], []⟩
            ("r1") ("unsafe") true).2
          [LedgerOp.create ("other") ("x") 2 ("t1")])
        ("docs2") ("write hello") 2 ("t2")).2 =
      applyOps (fun s => s)
        (denyRequest (fun s => s)
          ⟨[(("r1"), ⟨"docs", "write hello", 2, "pending", "t0", none, none, none⟩)], [], []⟩
          ("r1") ("unsafe") true).2
        [LedgerOp.create ("other") ("x") 2 ("t1")] :=
  vault_suppresses_create (fun s => s)
    ⟨[(("r1"), ⟨"docs", "write hello", 2, "pending", "t0", none, none, none⟩)], [], []⟩
    ("r1") ("unsafe") ⟨"docs", "write hello", 2, "pending", "t0", none, none, none⟩
    (by decide) [LedgerOp.create ("other") ("x") 2 ("t1")] ("docs2") 2 ("t2")

/-- C2: evaluated at a known request, `approve_request` returns true, sets
status/response and the correlation id — but puts nothing on the notification
queue, because `self._notify_approval_listeners` is not defined anywhere in the
repository: the call raises `AttributeError`, which the surrounding
`try/except Exception` swallows.  This exhibits the divergence from the claim
that a `(request_id, request)` event is enqueued before persisting. -/
theorem approve_does_not_enqueue :
    (approveRequest
        ⟨[(("r1"), ⟨"docs", "write hello", 2, "pending", "t0", none, none, none⟩)], [], []⟩
        ("r1") ("ok") ("corr1")).1 = true ∧
    aget (approveRequest
        ⟨[(("r1"), ⟨"docs", "write hello", 2, "pending", "t0", none, none, none⟩)], [], []⟩
        ("r1") ("ok") ("corr1")).2.requests ("r1") =
      some ⟨"docs", "write hello", 2, "approved", "t0", some ("ok"), none, some ("corr1")⟩ ∧
    (approveRequest
        ⟨[(("r1"), ⟨"docs", "write hello", 2, "pending", "t0", none, none, none⟩)], [], []⟩
        ("r1") ("ok") ("corr1")).2.notifyQueue = [] := by
  decide

/-- C7 counterexample: `deny_request` then `approve_request` on the same id
turns a DENIED request into an APPROVED one — the claimed terminality of
DENIED fails at this concrete input. -/
theorem denied_request_becomes_approved :
    (denyRequest (fun s => s)
        ⟨[(("r1"), ⟨"docs", "write hello", 2, "pending", "t0", none, none, none⟩)], [], []⟩
        ("r1") ("bad") true).1 = true ∧
    (aget (denyRequest (fun s => s)
        ⟨[(("r1"), ⟨"docs", "write hello", 2, "pending", "t0", none, none, none⟩)], [], []⟩
        ("r1") ("bad") true).2.requests ("r1")).map Request.status = some ("denied") ∧
    (approveRequest
        (denyRequest (fun s => s)
          ⟨[(("r1"), ⟨"docs", "write hello", 2, "pending", "t0", none, none, none⟩)], [], []⟩
          ("r1") ("bad") true).2
        ("r1") ("ok") ("c1")).1 = true ∧
    (aget (approveRequest
        (denyRequest (fun s => s)
          ⟨[(("r1"), ⟨"docs", "write hello", 2, "pending", "t0", none, none, none⟩)], [], []⟩
          ("r1") ("bad") true).2
        ("r1") ("ok") ("c1")).2.requests ("r1")).map Request.status = some ("approved") := by
  decide

/-- C7 (amended): `approve_request` and `deny_request` update any known request
regardless of its current status — neither checks for a terminal state, so
APPROVED and DENIED are not protected and a DENIED request becomes APPROVED
when `approve_request` is called on it. -/
theorem terminal_states_remutable (hash : String → String) (l : Ledger)
    (reqId response corr reason : String) (r : Request)
    (hr : aget l.requests reqId = some r) :
    (approveRequest l reqId response corr).1 = true ∧
    aget (approveRequest l reqId response corr).2.requests reqId =
      some { r with status := "approved", response := some response,
                    correlationId := some corr } ∧
    (denyRequest hash l reqId reason true).1 = true ∧
    aget (denyRequest hash l reqId reason true).2.requests reqId =
      some { r with status := "denied", reason := some reason } := by
  refine ⟨?_, ?_, ?_, ?_⟩ <;> simp only [approveRequest, denyRequest, hr]
  · exact aget_upsert_same l.requests reqId _
  · exact aget_upsert_same l.requests reqId _

/-- Witness for C7's amended claim at a request that is already DENIED:
approving it returns true and records status APPROVED. -/
theorem terminal_states_remutable_witness :
    (approveRequest
        ⟨[(("r1"), ⟨"docs", "write hello", 2, "denied", "t0", none, some ("bad"), none⟩)], [], []⟩
        ("r1") ("ok") ("c1")).1 = true ∧
    aget (approveRequest
        ⟨[(("r1"), ⟨"docs", "write hello", 2, "denied", "t0", none, some ("bad"), none⟩)], [], []⟩
        ("r1") ("ok") ("c1")).2.requests ("r1") =
      some ⟨"docs", "write hello", 2, "approved", "t0", some ("ok"), some ("bad"), some ("c1")⟩ ∧
    (denyRequest (fun s => s)
        ⟨[(("r1"), ⟨"docs", "write hello", 2, "denied", "t0", none, some ("bad"), none⟩)], [], []⟩
        ("r1") ("worse") true).1 = true ∧
    aget (denyRequest (fun s => s)
        ⟨[(("r1"), ⟨"docs", "write hello", 2, "denied", "t0", none, some ("bad"), none⟩)], [], []⟩
        ("r1") ("worse") true).2.requests ("r1") =
      some ⟨"docs", "write hello", 2, "denied", "t0", none, some ("worse"), none⟩ :=
  terminal_states_remutable (fun s => s)
    ⟨[(("r1"), ⟨"docs", "write hello", 2, "denied", "t0", none, some ("bad"), none⟩)], [], []⟩
    ("r1") ("ok") ("c1") ("worse")
    ⟨"docs", "write hello", 2, "denied", "t0", none, some ("bad"), none⟩
    (by decide)

/-! Artifact generator (`CodexDeusMaximus` in
    `src/app/agents/codex_deus_maximus.py`).

    Two pieces of the source are taken as function parameters rather than
    re-implemented: `render` stands for `_apply_style_template(topic,
    description, style)` (a pure style-tag-to-source-text template) and
    `validate` stands for `_validate_python_syntax` (whose truth value is
    decided by Python's external `ast.parse`).  Every theorem below is proved
    for all such functions, so it holds for the concrete template and parser
    in particular.  The agent is assumed `initialized` (as `create_codex`
    guarantees), and file writes are recorded in the returned `writes` list
    instead of performed. -/

/-- The ten style tags of `CodexDeusMaximus.DEFAULT_STYLES`, in order. -/
def DEFAULT_STYLES : List String :=
  ["idiomatic_python", "functional", "object_oriented", "procedural",
   "verbose_commented", "concise", "typed_annotations", "docstring_heavy",
   "test_first_stub", "async_first"]

/-- Translation of `CodexDeusMaximus._safe_filename`: keep alphanumerics,
dashes and underscores, replace anything else by an underscore, default to
`codex_impl` for an empty result, truncate to 120 characters. -/
def safeFilename (text : String) : String :=
  let keep := text.data.map (fun c => if c.isAlphanum || c == '-' || c == '_' then c else '_')
  let name := String.mk keep
  let name := if name = "" then "codex_impl" else name
  name.take 120

/-- Result of `CodexDeusMaximus._is_pending_or_vaulted`.  Note the source
computes `pending` with `any(...)` over ALL requests of the learning manager,
matching on description text or fingerprint but never on the request's
status — approved and denied requests count as "pending" here. -/
structure PV where
  pending : Bool
  vaulted : Bool
deriving DecidableEq, Repr

/-- Translation of `CodexDeusMaximus._is_pending_or_vaulted` (with
`self.learning_manager` as the `Option Ledger` argument). -/
def isPendingOrVaulted (hash : String → String) (lm : Option Ledger)
    (description : String) : PV :=
  match lm with
  | none => ⟨false, false⟩
  | some l =>
      let fingerprint := hash description
      let pending := l.requests.any (fun p =>
        p.2.description == description || hash p.2.description == fingerprint)
      let vaulted := decide (fingerprint ∈ l.blackVault)
      ⟨pending, vaulted⟩

/-- The value returned by `implement_request` (success carries path, written
content, final style and the list of styles tried, mirroring the dict keys). -/
inductive ImplResult where
  | ignoredSeen (fingerprint : String)
  | ignoredPendingOrVaulted
  | failed (tried : List String)
  | success (path content style : String) (tried : List String)
deriving DecidableEq, Repr

/-- Outcome of one `implement_request` call: its result, the updated seen
fingerprint set, and the file writes `(path, content)` it performed (the live
file under `src/app/generated/` and the timestamped archive copy). -/
structure ImplOutcome where
  result : ImplResult
  seen : List String
  writes : List (String × String)
deriving DecidableEq, Repr

/-- The fallback loop of `implement_request`: walk the remaining styles in
order, rendering and validating each, until one validates; returns the styles
attempted and the first validating `(content, style)`, if any. -/
def tryFallbacks (render : String → String) (validate : String → Bool) :
    List String → List String × Option (String × String)
  | [] => ([], none)
  | s :: rest =>
      let c := render s
      if validate c then ([s], some (c, s))
      else
        let res := tryFallbacks render validate rest
        (s :: res.1, res.2)

/-- Translation of `CodexDeusMaximus.implement_request`.  `chosenStyle` is
`style or self.current_style` after the source's normalisation, `tsArch` the
timestamp used for the archive copy.  Control flow from the source: seen
fingerprints are ignored; pending-or-vaulted descriptions are marked seen and
ignored; otherwise the chosen style is rendered and validated, falling back
through the remaining `DEFAULT_STYLES` in order; only validated content is
written (live file, then archive copy of the same content). -/
def implementRequest (hash : String → String)
    (render : String → String → String → String) (validate : String → Bool)
    (lm : Option Ledger) (seen : List String)
    (reqId topic description chosenStyle tsArch : String) : ImplOutcome :=
  let fp := hash description
  if fp ∈ seen then
    ⟨.ignoredSeen fp, seen, []⟩
  else
    let pv := isPendingOrVaulted hash lm description
    if pv.pending || pv.vaulted then
      ⟨.ignoredPendingOrVaulted, vaultAdd seen fp, []⟩
    else
      let fileName := safeFilename (reqId ++ "_" ++ topic) ++ ".py"
      let path := "src/app/generated/" ++ fileName
      let archivedPath := "src/app/generated/" ++ topic ++ "/" ++ tsArch ++ "_" ++ fileName
      let content0 := render topic description chosenStyle
      if validate content0 then
        ⟨.success path content0 chosenStyle [chosenStyle], seen,
         [(path, content0), (archivedPath, content0)]⟩
      else
        let fb := tryFallbacks (fun s => render topic description s) validate
          (DEFAULT_STYLES.filter (fun s => !(s == chosenStyle)))
        match fb.2 with
        | some cs =>
            ⟨.success path cs.1 cs.2 (chosenStyle :: fb.1), seen,
             [(path, cs.1), (archivedPath, cs.1)]⟩
        | none =>
            ⟨.failed (chosenStyle :: fb.1), seen, []⟩

theorem tryFallbacks_some_validates (render : String → String)
    (validate : String → Bool) (ss : List String) (c s : String)
    (h : (tryFallbacks render validate ss).2 = some (c, s)) :
    validate c = true ∧ c = render s ∧ ss.find? (fun x => validate (render x)) = some s := by
  induction ss with
  | nil => simp [tryFallbacks] at h
  | cons s₀ rest ih =>
      by_cases hv : validate (render s₀) = true
      · simp only [tryFallbacks, hv, if_pos] at h
        have h' := Option.some.inj h
        have hc : render s₀ = c := congrArg Prod.fst h'
        have hs : s₀ = s := congrArg Prod.snd h'
        subst hs
        exact ⟨hc ▸ hv, hc.symm, List.find?_cons_of_pos _ (by simpa using hv)⟩
      · rw [Bool.not_eq_true] at hv
        simp only [tryFallbacks, hv, Bool.false_eq_true, if_false] at h
        obtain ⟨h1, h2, h3⟩ := ih h
        refine ⟨h1, h2, ?_⟩
        have hneg := List.find?_cons_of_neg (p := fun x => validate (render x))
          rest (a := s₀) (by simp [hv])
        rw [hneg, h3]

theorem tryFallbacks_none_of_all_invalid (render : String → String)
    (validate : String → Bool) (ss : List String)
    (h : ∀ s ∈ ss, validate (render s) = false) :
    (tryFallbacks render validate ss).2 = none := by
  induction ss with
  | nil => rfl
  | cons s₀ rest ih =>
      have h0 := h s₀ (List.mem_cons_self s₀ rest)
      simp only [tryFallbacks, h0, Bool.false_eq_true, if_false]
      exact ih (fun s hs => h s (List.mem_cons_of_mem s₀ hs))

/-- C4: every file write performed by `implement_request` carries content that
passed syntax validation; the final style is the first validating one in
attempt order (chosen style first, then the remaining enumeration order); and
if every style's rendering fails validation, nothing is written at all. -/
theorem artifact_writes_validated (hash : String → String)
    (render : String → String → String → String) (validate : String → Bool)
    (lm : Option Ledger) (seen : List String)
    (reqId topic description chosenStyle tsArch : String) :
    (∀ p c, (p, c) ∈ (implementRequest hash render validate lm seen
        reqId topic description chosenStyle tsArch).writes → validate c = true) ∧
    (∀ path content sty tried,
      (implementRequest hash render validate lm seen
          reqId topic description chosenStyle tsArch).result =
        .success path content sty tried →
      validate content = true ∧ content = render topic description sty ∧
      (chosenStyle :: DEFAULT_STYLES.filter (fun s => !(s == chosenStyle))).find?
          (fun x => validate (render topic description x)) = some sty) ∧
    ((∀ s ∈ chosenStyle :: DEFAULT_STYLES, validate (render topic description s) = false) →
      (implementRequest hash render validate lm seen
          reqId topic description chosenStyle tsArch).writes = []) := by
  unfold implementRequest
  by_cases h1 : hash description ∈ seen
  · simp only [h1, if_pos]
    refine ⟨by intro p c hc; simp at hc, by intro a b c d he; simp at he, by intro _; trivial⟩
  · simp only [h1, if_neg, not_false_iff]
    by_cases h2 : ((isPendingOrVaulted hash lm description).pending ||
        (isPendingOrVaulted hash lm description).vaulted) = true
    · simp only [h2, if_pos]
      refine ⟨by intro p c hc; simp at hc, by intro a b c d he; simp at he, by intro _; trivial⟩
    · rw [Bool.not_eq_true] at h2
      simp only [h2, Bool.false_eq_true, if_false]
      by_cases h3 : validate (render topic description chosenStyle) = true
      · simp only [h3, if_pos]
        refine ⟨?_, ?_, ?_⟩
        · intro p c hc
          simp only [List.mem_cons, List.mem_singleton, Prod.mk.injEq] at hc
          rcases hc with ⟨_, hc⟩ | ⟨⟨_, hc⟩ | hfalse⟩
          · exact hc ▸ h3
          · exact hc ▸ h3
          · exact absurd hfalse (List.not_mem_nil _)
        · intro path content sty tried he
          obtain ⟨_, hc, hs, _⟩ := ImplResult.success.inj he
          subst hs
          exact ⟨hc ▸ h3, hc.symm, List.find?_cons_of_pos _ (by simpa using h3)⟩
        · intro hall
          exact absurd h3 (by simp [hall chosenStyle (List.mem_cons_self _ _)])
      · rw [Bool.not_eq_true] at h3
        simp only [h3, Bool.false_eq_true, if_false]
        cases hfb : (tryFallbacks (fun s => render topic description s) validate
            (DEFAULT_STYLES.filter (fun s => !(s == chosenStyle)))).2 with
        | some cs =>
            obtain ⟨hv, hc, hfind⟩ := tryFallbacks_some_validates _ _ _ cs.1 cs.2
              (by rw [hfb])
            simp only [hfb]
            refine ⟨?_, ?_, ?_⟩
            · intro p c hc'
              simp only [List.mem_cons, List.mem_singleton, Prod.mk.injEq] at hc'
              rcases hc' with ⟨_, hc'⟩ | ⟨⟨_, hc'⟩ | hfalse⟩
              · exact hc' ▸ hv
              · exact hc' ▸ hv
              · exact absurd hfalse (List.not_mem_nil _)
            · intro path content sty tried he
              obtain ⟨_, hcc, hss, _⟩ := ImplResult.success.inj he
              subst hss
              refine ⟨hcc ▸ hv, hcc.symm ▸ hc, ?_⟩
              have hneg := List.find?_cons_of_neg
                (p := fun x => validate (render topic description x))
                (DEFAULT_STYLES.filter (fun s => !(s == chosenStyle)))
                (a := chosenStyle) (by simp [h3])
              rw [hneg, hfind]
            · intro hall
              have : validate cs.1 = false := by
                have hmem : cs.2 ∈ DEFAULT_STYLES.filter (fun s => !(s == chosenStyle)) :=
                  List.mem_of_find?_eq_some hfind
                have : cs.2 ∈ DEFAULT_STYLES := List.mem_of_mem_filter hmem
                rw [hc]
                exact hall cs.2 (List.mem_cons_of_mem _ this)
              rw [hv] at this
              exact absurd this (by simp)
        | none =>
            simp only [hfb]
            exact ⟨by intro p c hc; simp at hc, by intro a b c d he; simp at he,
              by intro _; trivial⟩

set_option maxRecDepth 8192 in
/-- Witness for C4: with a template that validates only in the `concise`
style, `implement_request` falls back to it and the written content is
validated; the theorem instantiated at this input yields the fact below. -/
theorem artifact_writes_validated_witness :
    ((fun c => c == ("ok")) ("ok") : Bool) = true :=
  (artifact_writes_validated (fun s => s)
      (fun _ _ s => if s == ("concise") then "ok" else "bad")
      (fun c => c == ("ok")) none [] ("r1") ("t") ("d") ("idiomatic_python")
      ("ts")).1 ("src/app/generated/r1_t.py") ("ok") (by decide)

/-- C3: at a ledger whose only request matching description `d` has status
APPROVED (and `d` is neither vaulted nor seen), `implement_request` still
returns the ignored `pending_or_vaulted` result and writes nothing — the
source's `_is_pending_or_vaulted` never filters on the PENDING status, so
generation does not proceed although the claim says it should. -/
theorem implement_ignores_approved_request :
    (aget ([(("r1"), ⟨"t", "d", 2, "approved", "t0", some ("ok"), none, some ("c0")⟩)] :
        List (String × Request)) ("r1")).map Request.status = some ("approved") ∧
    (implementRequest (fun s => s) (fun _ _ _ => "x") (fun _ => true)
        (some ⟨[(("r1"), ⟨"t", "d", 2, "approved", "t0", some ("ok"), none, some ("c0")⟩)], [], []⟩)
        [] ("r1") ("t") ("d") ("concise") ("ts")).result =
      ImplResult.ignoredPendingOrVaulted ∧
    (implementRequest (fun s => s) (fun _ _ _ => "x") (fun _ => true)
        (some ⟨[(("r1"), ⟨"t", "d", 2, "approved", "t0", some ("ok"), none, some ("c0")⟩)], [], []⟩)
        [] ("r1") ("t") ("d") ("concise") ("ts")).writes = [] := by
  decide

/-- C8 counterexample: with the request for description `d` pending in the
ledger, the second of two identical `implement_request` calls returns the
`ignored_seen` result, not the `ignored_pending_or_vaulted` one the claim
names (the first call already marked the fingerprint seen). -/
theorem second_call_not_labeled_pending_or_vaulted :
    (implementRequest (fun s => s) (fun _ _ _ => "x") (fun _ => true)
        (some ⟨[(("r1"), ⟨"t", "d", 2, "pending", "t0", none, none, none⟩)], [], []⟩)
        (implementRequest (fun s => s) (fun _ _ _ => "x") (fun _ => true)
          (some ⟨[(("r1"), ⟨"t", "d", 2, "pending", "t0", none, none, none⟩)], [], []⟩)
          [] ("r1") ("t") ("d") ("concise") ("ts1")).seen
        ("r1") ("t") ("d") ("concise") ("ts2")).result = ImplResult.ignoredSeen ("d") ∧
    (implementRequest (fun s => s) (fun _ _ _ => "x") (fun _ => true)
        (some ⟨[(("r1"), ⟨"t", "d", 2, "pending", "t0", none, none, none⟩)], [], []⟩)
        (implementRequest (fun s => s) (fun _ _ _ => "x") (fun _ => true)
          (some ⟨[(("r1"), ⟨"t", "d", 2, "pending", "t0", none, none, none⟩)], [], []⟩)
          [] ("r1") ("t") ("d") ("concise") ("ts1")).seen
        ("r1") ("t") ("d") ("concise") ("ts2")).result ≠
      ImplResult.ignoredPendingOrVaulted := by
  decide

/-- C8 (amended): with the request for description D pending and D's
fingerprint fresh, the first `implement_request` call returns the
`pending_or_vaulted` ignore, writes no file and marks the fingerprint seen;
the second identical call then returns the `ignored_seen` result and likewise
writes no file. -/
theorem second_implement_ignored_seen (hash : String → String)
    (render : String → String → String → String) (validate : String → Bool)
    (l : Ledger) (seen : List String)
    (reqId topic description chosenStyle ts1 ts2 : String) (idx : String) (r : Request)
    (hr : (idx, r) ∈ l.requests) (hd : r.description = description)
    (_hst : r.status = "pending") (hs : hash description ∉ seen) :
    (implementRequest hash render validate (some l) seen
        reqId topic description chosenStyle ts1).result =
      ImplResult.ignoredPendingOrVaulted ∧
    (implementRequest hash render validate (some l) seen
        reqId topic description chosenStyle ts1).writes = [] ∧
    (implementRequest hash render validate (some l) seen
        reqId topic description chosenStyle ts1).seen =
      vaultAdd seen (hash description) ∧
    (implementRequest hash render validate (some l)
        (implementRequest hash render validate (some l) seen
          reqId topic description chosenStyle ts1).seen
        reqId topic description chosenStyle ts2).result =
      ImplResult.ignoredSeen (hash description) ∧
    (implementRequest hash render validate (some l)
        (implementRequest hash render validate (some l) seen
          reqId topic description chosenStyle ts1).seen
        reqId topic description chosenStyle ts2).writes = [] := by
  have hpend : (isPendingOrVaulted hash (some l) description).pending = true := by
    simp only [isPendingOrVaulted]
    rw [List.any_eq_true]
    exact ⟨(idx, r), hr, by simp [hd]⟩
  have ho1 : implementRequest hash render validate (some l) seen
      reqId topic description chosenStyle ts1 =
      ⟨.ignoredPendingOrVaulted, vaultAdd seen (hash description), []⟩ := by
    unfold implementRequest
    rw [if_neg hs, if_pos (by rw [hpend]; rfl)]
  refine ⟨by rw [ho1], by rw [ho1], by rw [ho1], ?_, ?_⟩
  · rw [ho1]
    unfold implementRequest
    rw [if_pos (mem_vaultAdd_self seen (hash description))]
  · rw [ho1]
    unfold implementRequest
    rw [if_pos (mem_vaultAdd_self seen (hash description))]

/-- Witness for C8's amended claim at the counterexample's concrete input. -/
theorem second_implement_ignored_seen_witness :
    (implementRequest (fun s => s) (fun _ _ _ => "x") (fun _ => true)
        (some ⟨[(("r1"), ⟨"t", "d", 2, "pending", "t0", none, none, none⟩)], [], []⟩)
        [] ("r1") ("t") ("d") ("concise") ("ts1")).result =
      ImplResult.ignoredPendingOrVaulted ∧
    (implementRequest (fun s => s) (fun _ _ _ => "x") (fun _ => true)
        (some ⟨[(("r1"), ⟨"t", "d", 2, "pending", "t0", none, none, none⟩)], [], []⟩)
        [] ("r1") ("t") ("d") ("concise") ("ts1")).writes = [] ∧
    (implementRequest (fun s => s) (fun _ _ _ => "x") (fun _ => true)
        (some ⟨[(("r1"), ⟨"t", "d", 2, "pending", "t0", none, none, none⟩)], [], []⟩)
        [] ("r1") ("t") ("d") ("concise") ("ts1")).seen = vaultAdd [] ("d") ∧
    (implementRequest (fun s => s) (fun _ _ _ => "x") (fun _ => true)
        (some ⟨[(("r1"), ⟨"t", "d", 2, "pending", "t0", none, none, none⟩)], [], []⟩)
        (implementRequest (fun s => s) (fun _ _ _ => "x") (fun _ => true)
          (some ⟨[(("r1"), ⟨"t", "d", 2, "pending", "t0", none, none, none⟩)], [], []⟩)
          [] ("r1") ("t") ("d") ("concise") ("ts1")).seen
        ("r1") ("t") ("d") ("concise") ("ts2")).result = ImplResult.ignoredSeen ("d") ∧
    (implementRequest (fun s => s) (fun _ _ _ => "x") (fun _ => true)
        (some ⟨[(("r1"), ⟨"t", "d", 2, "pending", "t0", none, none, none⟩)], [], []⟩)
        (implementRequest (fun s => s) (fun _ _ _ => "x") (fun _ => true)
          (some ⟨[(("r1"), ⟨"t", "d", 2, "pending", "t0", none, none, none⟩)], [], []⟩)
          [] ("r1") ("t") ("d") ("concise") ("ts1")).seen
        ("r1") ("t") ("d") ("concise") ("ts2")).writes = [] :=
  second_implement_ignored_seen (fun s => s) (fun _ _ _ => "x") (fun _ => true)
    ⟨[(("r1"), ⟨"t", "d", 2, "pending", "t0", none, none, none⟩)], [], []⟩
    [] ("r1") ("t") ("d") ("concise") ("ts1") ("ts2") ("r1")
    ⟨"t", "d", 2, "pending", "t0", none, none, none⟩
    (by decide) rfl rfl (by decide)

/-! Access control (`src/app/core/access_control.py`), integration engine and
    staging (`src/app/agents/codex_deus_maximus.py`), council hub
    (`src/app/core/council_hub.py`).

    The on-disk project tree is a file system `FS` mapping paths to text
    contents; `aget fs p` is `open(p).read()` (with `none` for a missing
    path, i.e. `os.path.exists` false), `upsert` is a write/copy, `aremove`
    is `os.remove`. -/

/-- The role table `{user: [roles]}` of `AccessControlManager`. -/
abbrev Roles := List (String × List String)

/-- Translation of `AccessControlManager.has_role`:
`role in self._users.get(user, [])`. -/
def hasRole (ac : Roles) (user role : String) : Bool :=
  match aget ac user with
  | none => false
  | some roles => roles.contains role

/-- File system model: paths to text contents. -/
abbrev FS := List (String × String)

/-- Python's substring test `needle in hay`, on character lists: `charsLead`
is "needle starts here", `charsContain` scans every suffix. -/
def charsLead : List Char → List Char → Bool
  | [], _ => true
  | _ :: _, [] => false
  | a :: as, b :: bs => a == b && charsLead as bs

/-- Scan every suffix of the haystack for the needle (see `charsLead`). -/
def charsContain (needle : List Char) : List Char → Bool
  | [] => needle.isEmpty
  | b :: bs => charsLead needle (b :: bs) || charsContain needle bs

/-- Python `needle in hay` on strings. -/
def containsSub (hay needle : String) : Bool := charsContain needle.data hay.data

/-- The import reference line of `_perform_integration` for a generated
module, after `.strip()` (the written line adds a trailing newline). -/
def importLineOf (mod : String) : String := "from app.generated import " ++ mod

/-- One entry of the `integrated` list of an integration report:
`{"target", "module", "backup"}`. -/
structure IntEntry where
  target : String
  module : String
  backup : String
deriving DecidableEq, Repr

/-- A `skipped` (or `errors`) entry: target plus reason. -/
structure SkipEntry where
  target : String
  reason : String
deriving DecidableEq, Repr

/-- The report dict built by `_perform_integration`.  The `errors` list is
only fed by I/O exceptions, which the pure model does not produce. -/
structure IntReport where
  integrated : List IntEntry
  skipped : List SkipEntry
  errors : List SkipEntry
deriving DecidableEq, Repr

/-- One inner-loop iteration of `CodexDeusMaximus._perform_integration` for
generated module `m` and target `tgt`: missing target → skipped; import line
already present → skipped; otherwise back the target up to
`tgt + ".codexbak"`, append the reference block, and record the entry. -/
def integOne (m : String) (st : FS × IntReport) (tgt : String) : FS × IntReport :=
  match aget st.1 tgt with
  | none => (st.1, { st.2 with skipped := st.2.skipped ++ [⟨tgt, "missing"⟩] })
  | some content =>
      if containsSub content (importLineOf m) then
        (st.1, { st.2 with skipped := st.2.skipped ++ [⟨tgt, "already_imported"⟩] })
      else
        let bak := tgt ++ ".codexbak"
        let fs1 := upsert st.1 bak content
        let fs2 := upsert fs1 tgt
          (content ++ "\n# Integrated generated module\n" ++ importLineOf m ++ "\n")
        (fs2, { st.2 with integrated := st.2.integrated ++ [⟨tgt, m, bak⟩] })

/-- Translation of `CodexDeusMaximus._perform_integration`: the nested loop
over generated module names (`os.listdir` of the output directory, `.py`
extension stripped) and target files.  Always reports success. -/
def performIntegration (fs : FS) (mods targets : List String) : FS × IntReport :=
  mods.foldl (fun st m => targets.foldl (integOne m) st) (fs, ⟨[], [], []⟩)

/-- Result of `integrate_across_project`: the RBAC/configuration-gated manual
entry point. -/
inductive CrossResult where
  | notAllowed
  | done (report : IntReport)
deriving DecidableEq, Repr

/-- Translation of `CodexDeusMaximus.integrate_across_project`: refuses with
`integration_not_allowed` unless `self.allow_integration` is set AND the
`system` principal holds the `integrator` role; otherwise performs the
integration. -/
def integrateAcrossProject (allowIntegration : Bool) (ac : Roles) (fs : FS)
    (mods targets : List String) : CrossResult × FS :=
  if !allowIntegration || !(hasRole ac ("system") ("integrator")) then (.notAllowed, fs)
  else
    let r := performIntegration fs mods targets
    (.done r.2, r.1)

/-- Result of `integrate_approved`. -/
inductive ApprovedResult where
  | blocked (failures : List String)
  | done (report : IntReport)
deriving DecidableEq, Repr

/-- Translation of `CodexDeusMaximus.integrate_approved`.  The method takes
`self.allow_integration` and the access-control table in scope but never
consults either.  The CouncilHub quality pipeline (dependency auditor and QA
generator, external subprocess-driven agents) is abstracted to its observable
outcome: `project = none` models "no project head registered on the hub"
and equally the `except` path when consulting the hub raises (both fall
through to integration with zero checks); `project = some failures` carries
the failure list that remains after filtering the benign
"no tests ran"/returncode-5 case. -/
def integrateApproved (project : Option (List String)) (allowIntegration : Bool)
    (ac : Roles) (fs : FS) (mods targets : List String) : ApprovedResult × FS :=
  match project with
  | none =>
      let r := performIntegration fs mods targets
      (.done r.2, r.1)
  | some filteredFailures =>
      if filteredFailures = [] then
        let r := performIntegration fs mods targets
        (.done r.2, r.1)
      else (.blocked filteredFailures, fs)

/-- Result lists built by `rollback_integrations`. -/
structure RbResult where
  restored : List (String × String)
  errors : List (String × String × String)
deriving DecidableEq, Repr

/-- One iteration of the `rollback_integrations` loop: restore the target
from its backup and delete the backup when the backup path is truthy and
exists; otherwise record a `backup_missing` error and continue. -/
def rollbackStep (st : FS × RbResult) (e : IntEntry) : FS × RbResult :=
  if e.backup = "" then
    (st.1, { st.2 with errors := st.2.errors ++ [(e.target, e.module, "backup_missing")] })
  else
    match aget st.1 e.backup with
    | some bcontent =>
        (aremove (upsert st.1 e.target bcontent) e.backup,
         { st.2 with restored := st.2.restored ++ [(e.target, e.module)] })
    | none =>
        (st.1, { st.2 with errors := st.2.errors ++ [(e.target, e.module, "backup_missing")] })

/-- Translation of `CodexDeusMaximus.rollback_integrations`, applied to the
`integrated` list of a report. -/
def rollbackIntegrations (fs : FS) (entries : List IntEntry) : FS × RbResult :=
  entries.foldl rollbackStep (fs, ⟨[], []⟩)

/-- The staged JSON record written by `stage_artifact`. -/
structure StagedMeta where
  ts : String
  reqId : String
  topic : String
  description : String
  archived : String
  activated : Bool
deriving DecidableEq, Repr

/-- Result of `activate_staged`. -/
inductive ActivateResult where
  | unauthorized
  | readError
  | missingArtifact
  | integrationFailed
  | activated (report : IntReport)
deriving DecidableEq, Repr

/-- Translation of `CodexDeusMaximus.activate_staged`: requester must hold
the `integrator` role (checked before the staged file is opened); the staged
record must parse and its referenced archived artifact must exist on disk;
then `integrate_across_project` runs, and only when it reports success is the
record's `activated` flag flipped and re-persisted.  A missing staged file
raises inside the generic `try/except`, reported here as `readError`. -/
def activateStaged (ac : Roles) (allowIntegration : Bool)
    (staged : List (String × StagedMeta)) (fs : FS) (mods targets : List String)
    (stagedPath requester : String) :
    ActivateResult × List (String × StagedMeta) × FS :=
  if !(hasRole ac requester ("integrator")) then (.unauthorized, staged, fs)
  else
    match aget staged stagedPath with
    | none => (.readError, staged, fs)
    | some meta =>
        if meta.archived = "" ∨ aget fs meta.archived = none then
          (.missingArtifact, staged, fs)
        else
          match integrateAcrossProject allowIntegration ac fs mods targets with
          | (.done report, fs') =>
              (.activated report,
               upsert staged stagedPath { meta with activated := true }, fs')
          | (.notAllowed, fs') => (.integrationFailed, staged, fs')

/-- The CouncilHub state relevant to message routing: whether a project head
is registered (`_project is not None`) and the `_agents` map of
`{agent_id: {"obj": ..., "active": bool}}`, reduced to the `active` flag. -/
structure Hub where
  projectRegistered : Bool
  agents : List (String × Bool)
deriving DecidableEq, Repr

/-- Translation of `CouncilHub._cut_communication`: set a registered agent's
`active` flag to false (plus a best-effort `deactivate()` on the wrapped
object); unknown agents are only logged. -/
def cutCommunication (hub : Hub) (agentId : String) : Hub :=
  match aget hub.agents agentId with
  | some _ => { hub with agents := upsert hub.agents agentId false }
  | none => hub

/-- Result of `route_message`; `received` records the
`recipient.receive_message(from_id, message)` invocation performed on
delivery (the repo's agent callbacks do not raise, so the exception branch of
the best-effort delivery is not exercised). -/
structure RouteResult where
  delivered : Bool
  reason : Option String
  received : Option (String × String × String)
deriving DecidableEq, Repr

/-- Translation of `CouncilHub.route_message`.  `isSafe` is the verdict of
`_consult_cerberus` (an external analyzer, defaulting to safe when
unavailable).  Unsafe content cuts the sender's communication and is not
delivered; otherwise the recipient is resolved as project shorthand `PA` or
a registered agent id — with no consultation of the `active` flag — and the
message is handed to its `receive_message`. -/
def routeMessage (hub : Hub) (isSafe : Bool) (fromId toId message : String) :
    RouteResult × Hub :=
  if !isSafe then
    (⟨false, some ("unsafe"), none⟩, cutCommunication hub fromId)
  else
    let recipient :=
      if toId = "PA" ∧ hub.projectRegistered then some toId
      else if (aget hub.agents toId).isSome then some toId
      else none
    match recipient with
    | none => (⟨false, some ("unknown_recipient"), none⟩, hub)
    | some rid => (⟨true, none, some (rid, fromId, message)⟩, hub)

/-- C9: `integrate_approved` is invariant in the `allow_integration` flag and
the role table (it consults neither); with no project head on the hub it
performs the full integration with zero quality-gate checks; and concretely,
with `allow_integration=false` and an empty role table it still modifies a
target file that the manual `integrate_across_project` refuses to touch. -/
theorem integrate_approved_bypasses_gates :
    (∀ (project : Option (List String)) (flag flag' : Bool) (ac ac' : Roles)
        (fs : FS) (mods targets : List String),
      integrateApproved project flag ac fs mods targets =
        integrateApproved project flag' ac' fs mods targets) ∧
    (∀ (flag : Bool) (ac : Roles) (fs : FS) (mods targets : List String),
      integrateApproved none flag ac fs mods targets =
        (.done (performIntegration fs mods targets).2,
         (performIntegration fs mods targets).1)) ∧
    (integrateApproved none false [] [(("t.py"), "x")] [("m")] [("t.py")]).1 =
      ApprovedResult.done ⟨[⟨"t.py", "m", "t.py.codexbak"⟩], [], []⟩ ∧
    aget (integrateApproved none false [] [(("t.py"), "x")] [("m")] [("t.py")]).2
        ("t.py") =
      some ("x\n# Integrated generated module\nfrom app.generated import m\n") ∧
    integrateAcrossProject false [] [(("t.py"), "x")] [("m")] [("t.py")] =
      (CrossResult.notAllowed, [(("t.py"), "x")]) := by
  refine ⟨?_, ?_, by decide, by decide, by decide⟩
  · intro project flag flag' ac ac' fs mods targets
    cases project <;> rfl
  · intro flag ac fs mods targets
    rfl

/-- C10: after `_cut_communication(a)` has set agent `a` inactive,
`route_message` still delivers safe messages sent by `a` to any registered
recipient and invokes the recipient's `receive_message`; messages addressed
to the inactive `a` are likewise still delivered — the routing never reads
the `active` flag. -/
theorem route_message_ignores_active_flag (hub : Hub) (a dst sender msg msg2 : String)
    (hreg : (aget hub.agents a).isSome)
    (hto : (aget (cutCommunication hub a).agents dst).isSome) :
    aget (cutCommunication hub a).agents a = some false ∧
    (routeMessage (cutCommunication hub a) true a dst msg).1.delivered = true ∧
    (routeMessage (cutCommunication hub a) true a dst msg).1.received =
      some (dst, a, msg) ∧
    (routeMessage (cutCommunication hub a) true sender a msg2).1.delivered = true ∧
    (routeMessage (cutCommunication hub a) true sender a msg2).1.received =
      some (a, sender, msg2) := by
  obtain ⟨x, hx⟩ := Option.isSome_iff_exists.mp hreg
  have hcut : aget (cutCommunication hub a).agents a = some false := by
    simp only [cutCommunication, hx]
    exact aget_upsert_same hub.agents a false
  have hdeliver : ∀ hub' dest src m, (aget (Hub.agents hub') dest).isSome →
      (routeMessage hub' true src dest m).1.delivered = true ∧
      (routeMessage hub' true src dest m).1.received = some (dest, src, m) := by
    intro hub' dest src m hdest
    have hroute : (routeMessage hub' true src dest m).1 =
        ⟨true, none, some (dest, src, m)⟩ := by
      simp only [routeMessage, Bool.not_true, Bool.false_eq_true, if_false]
      by_cases hPA : dest = "PA" ∧ hub'.projectRegistered
      · rw [if_pos hPA]
      · rw [if_neg hPA, if_pos hdest]
    exact ⟨by rw [hroute], by rw [hroute]⟩
  obtain ⟨d1, d2⟩ := hdeliver (cutCommunication hub a) dst a msg hto
  obtain ⟨d3, d4⟩ := hdeliver (cutCommunication hub a) a sender msg2 (by rw [hcut]; rfl)
  exact ⟨hcut, d1, d2, d3, d4⟩

/-- Witness for C10: agent `b` is cut (set inactive), yet a safe message from
`b` to registered agent `c` — and one from `c` to the inactive `b` — are both
delivered. -/
theorem route_message_ignores_active_flag_witness :
    aget (cutCommunication ⟨false, [(("b"), true), (("c"), true)]⟩ ("b")).agents ("b") =
      some false ∧
    (routeMessage (cutCommunication ⟨false, [(("b"), true), (("c"), true)]⟩ ("b"))
        true ("b") ("c") ("hi")).1.delivered = true ∧
    (routeMessage (cutCommunication ⟨false, [(("b"), true), (("c"), true)]⟩ ("b"))
        true ("b") ("c") ("hi")).1.received = some (("c"), ("b"), ("hi")) ∧
    (routeMessage (cutCommunication ⟨false, [(("b"), true), (("c"), true)]⟩ ("b"))
        true ("c") ("b") ("yo")).1.delivered = true ∧
    (routeMessage (cutCommunication ⟨false, [(("b"), true), (("c"), true)]⟩ ("b"))
        true ("c") ("b") ("yo")).1.received = some (("b"), ("c"), ("yo")) :=
  route_message_ignores_active_flag ⟨false, [(("b"), true), (("c"), true)]⟩
    ("b") ("c") ("c") ("hi") ("yo") (by decide) (by decide)

/-- C6: `activate_staged` returns `unauthorized` when the requester lacks the
`integrator` role, leaving every component of the state untouched and without
depending on the staged store's contents (the statement is universally
quantified over it); with the role held, a staged record whose archived
artifact is absent from disk yields `missing_artifact`; and the staged
record's `activated` flag is only ever flipped when the call returns the
successful `activated` result, which requires the integration gates
(`allow_integration` and the system integrator role) to have held. -/
theorem activate_staged_gating (ac : Roles) (flag : Bool)
    (staged : List (String × StagedMeta)) (fs : FS) (mods targets : List String)
    (stagedPath requester : String) :
    (hasRole ac requester ("integrator") = false →
      activateStaged ac flag staged fs mods targets stagedPath requester =
        (.unauthorized, staged, fs)) ∧
    (∀ meta, hasRole ac requester ("integrator") = true →
      aget staged stagedPath = some meta →
      aget fs meta.archived = none →
      activateStaged ac flag staged fs mods targets stagedPath requester =
        (.missingArtifact, staged, fs)) ∧
    (∀ res st' fs',
      activateStaged ac flag staged fs mods targets stagedPath requester =
        (res, st', fs') →
      (∀ rep, res ≠ ActivateResult.activated rep) → st' = staged) ∧
    (∀ rep st' fs',
      activateStaged ac flag staged fs mods targets stagedPath requester =
        (ActivateResult.activated rep, st', fs') →
      flag = true ∧ hasRole ac ("system") ("integrator") = true) := by
  refine ⟨?_, ?_, ?_, ?_⟩
  · intro hno
    simp only [activateStaged, hno, Bool.not_false, if_pos]
  · intro meta hyes hmeta hmiss
    simp only [activateStaged, hyes, Bool.not_true, Bool.false_eq_true, if_false, hmeta]
    rw [if_pos (Or.inr hmiss)]
  · intro res st' fs' hcall hnot
    by_cases hrole : hasRole ac requester ("integrator") = true
    · simp only [activateStaged, hrole, Bool.not_true, Bool.false_eq_true, if_false] at hcall
      cases hmeta : aget staged stagedPath with
      | none =>
          simp only [hmeta] at hcall
          exact (congrArg (fun t => t.2.1) hcall).symm
      | some meta =>
          simp only [hmeta] at hcall
          by_cases hmiss : meta.archived = "" ∨ aget fs meta.archived = none
          · rw [if_pos hmiss] at hcall
            exact (congrArg (fun t => t.2.1) hcall).symm
          · rw [if_neg hmiss] at hcall
            cases hint : integrateAcrossProject flag ac fs mods targets with
            | mk cr fsI =>
                cases cr with
                | notAllowed =>
                    simp only [hint] at hcall
                    exact (congrArg (fun t => t.2.1) hcall).symm
                | done rep =>
                    simp only [hint] at hcall
                    have hres : res = ActivateResult.activated rep :=
                      (congrArg (fun t => t.1) hcall).symm
                    exact absurd hres (hnot rep)
    · rw [Bool.not_eq_true] at hrole
      simp only [activateStaged, hrole, Bool.not_false, if_pos] at hcall
      exact (congrArg (fun t => t.2.1) hcall).symm
  · intro rep st' fs' hcall
    by_cases hrole : hasRole ac requester ("integrator") = true
    · simp only [activateStaged, hrole, Bool.not_true, Bool.false_eq_true, if_false] at hcall
      cases hmeta : aget staged stagedPath with
      | none =>
          simp only [hmeta] at hcall
          exact absurd (congrArg (fun t => t.1) hcall) (by simp)
      | some meta =>
          simp only [hmeta] at hcall
          by_cases hmiss : meta.archived = "" ∨ aget fs meta.archived = none
          · rw [if_pos hmiss] at hcall
            exact absurd (congrArg (fun t => t.1) hcall) (by simp)
          · rw [if_neg hmiss] at hcall
            by_cases hgate : (!flag || !(hasRole ac ("system") ("integrator"))) = true
            · rw [show integrateAcrossProject flag ac fs mods targets = (.notAllowed, fs) by
                  simp only [integrateAcrossProject, hgate, if_pos]] at hcall
              exact absurd (congrArg (fun t => t.1) hcall) (by simp)
            · have := hgate
              simp only [Bool.or_eq_true, Bool.not_eq_true', not_or,
                Bool.not_eq_false] at this
              exact this
    · rw [Bool.not_eq_true] at hrole
      simp only [activateStaged, hrole, Bool.not_false, if_pos] at hcall
      exact absurd (congrArg (fun t => t.1) hcall) (by simp)

/-- Witness for C6: requester `alice` without the role is refused,
and `bob` with the role hits `missing_artifact` on a staged record whose
archived artifact is not on disk. -/
theorem activate_staged_gating_witness :
    activateStaged [] true [] [] [] [] ("p") ("alice") =
      (ActivateResult.unauthorized, [], []) ∧
    activateStaged [(("bob"), ["integrator"])] true
        [(("p"), ⟨"ts", "r1", "t", "d", "arch.py", false⟩)] [] [] [] ("p") ("bob") =
      (ActivateResult.missingArtifact,
       [(("p"), ⟨"ts", "r1", "t", "d", "arch.py", false⟩)], []) :=
  ⟨(activate_staged_gating [] true [] [] [] [] ("p") ("alice")).1 (by decide),
   (activate_staged_gating [(("bob"), ["integrator"])] true
      [(("p"), ⟨"ts", "r1", "t", "d", "arch.py", false⟩)] [] [] [] ("p")
      ("bob")).2.1 ⟨"ts", "r1", "t", "d", "arch.py", false⟩
      (by decide) (by decide) (by decide)⟩

/-! Rollback analysis (C5).  `_perform_integration` uses the single backup
    path `target + ".codexbak"` per target file, shared by every generated
    module, which is what breaks byte-identical restoration as soon as two
    modules are integrated into the same target. -/

/-- The text appended to a target by `_perform_integration`. -/
def appLine (m : String) : String :=
  "\n# Integrated generated module\n" ++ importLineOf m ++ "\n"

/-- Pointwise concatenation of integration reports. -/
def repApp (r₁ r₂ : IntReport) : IntReport :=
  ⟨r₁.integrated ++ r₂.integrated, r₁.skipped ++ r₂.skipped, r₁.errors ++ r₂.errors⟩

/-- Pointwise concatenation of rollback results. -/
def rbApp (r₁ r₂ : RbResult) : RbResult :=
  ⟨r₁.restored ++ r₂.restored, r₁.errors ++ r₂.errors⟩

/-- The backup path suffix used by the integration engine. -/
def bakOf (t : String) : String := t ++ ".codexbak"

theorem bak_ne_self (t : String) : ¬ (t = bakOf t) := by
  intro h
  have h2 := congrArg String.length h
  rw [bakOf, String.length_append] at h2
  have h3 : (".codexbak" : String).length = 9 := rfl
  omega

theorem bak_inj (t u : String) (h : bakOf t = bakOf u) : t = u := by
  rw [bakOf, bakOf] at h
  have hd := congrArg String.data h
  rw [String.data_append t _, String.data_append u _] at hd
  exact String.ext (List.append_cancel_right hd)

theorem bak_ne_empty (t : String) : ¬ (bakOf t = "") := by
  intro h
  have h2 := congrArg String.length h
  rw [bakOf, String.length_append] at h2
  have h3 : (".codexbak" : String).length = 9 := rfl
  have h4 : ("" : String).length = 0 := rfl
  omega

theorem integOne_split (m tgt : String) (fs : FS) (rep : IntReport) :
    integOne m (fs, rep) tgt =
      ((integOne m (fs, ⟨[], [], []⟩) tgt).1,
       repApp rep (integOne m (fs, ⟨[], [], []⟩) tgt).2) := by
  unfold integOne
  cases h : aget fs tgt with
  | none => simp [h, repApp]
  | some c =>
      by_cases hc : containsSub c (importLineOf m) = true
      · simp [h, hc, repApp]
      · simp [h, hc, repApp]

theorem integ_fold_split (m : String) (ts : List String) :
    ∀ (fs : FS) (rep : IntReport),
      ts.foldl (integOne m) (fs, rep) =
        ((ts.foldl (integOne m) (fs, ⟨[], [], []⟩)).1,
         repApp rep (ts.foldl (integOne m) (fs, ⟨[], [], []⟩)).2) := by
  induction ts with
  | nil =>
      intro fs rep
      simp [repApp]
  | cons t ts ih =>
      intro fs rep
      simp only [List.foldl_cons]
      cases hY : integOne m (fs, ⟨[], [], []⟩) t with
      | mk fs1 d =>
          rw [integOne_split m t fs rep, hY]
          rw [ih fs1 (repApp rep d), ih fs1 d]
          simp [repApp, List.append_assoc]

theorem rollbackStep_split (e : IntEntry) (fs : FS) (acc : RbResult) :
    rollbackStep (fs, acc) e =
      ((rollbackStep (fs, ⟨[], []⟩) e).1,
       rbApp acc (rollbackStep (fs, ⟨[], []⟩) e).2) := by
  unfold rollbackStep
  by_cases hb : e.backup = ""
  · simp [hb, rbApp]
  · cases h : aget fs e.backup with
    | none => simp [hb, h, rbApp]
    | some c => simp [hb, h, rbApp]

theorem rb_fold_split (es : List IntEntry) :
    ∀ (fs : FS) (acc : RbResult),
      es.foldl rollbackStep (fs, acc) =
        ((es.foldl rollbackStep (fs, ⟨[], []⟩)).1,
         rbApp acc (es.foldl rollbackStep (fs, ⟨[], []⟩)).2) := by
  induction es with
  | nil =>
      intro fs acc
      simp [rbApp]
  | cons e rest ih =>
      intro fs acc
      simp only [List.foldl_cons]
      cases hY : rollbackStep (fs, ⟨[], []⟩) e with
      | mk fs1 d =>
          rw [rollbackStep_split e fs acc, hY]
          rw [ih fs1 (rbApp acc d), ih fs1 d]
          simp [rbApp, List.append_assoc]

theorem rollbackStep_one (e : IntEntry) (fs : FS) :
    (rollbackStep (fs, ⟨[], []⟩) e).2.restored.length +
      (rollbackStep (fs, ⟨[], []⟩) e).2.errors.length = 1 := by
  unfold rollbackStep
  by_cases hb : e.backup = ""
  · simp [hb]
  · cases h : aget fs e.backup with
    | none => simp [hb, h]
    | some c => simp [hb, h]

/-- Rollback never aborts: every entry of the report lands in either
`restored` or `errors`. -/
theorem rollback_processes_every_entry (es : List IntEntry) : ∀ fs : FS,
    (rollbackIntegrations fs es).2.restored.length +
      (rollbackIntegrations fs es).2.errors.length = es.length := by
  induction es with
  | nil => intro fs; rfl
  | cons e rest ih =>
      intro fs
      unfold rollbackIntegrations
      simp only [List.foldl_cons]
      cases hstep : rollbackStep (fs, ⟨[], []⟩) e with
      | mk fs1 acc1 =>
          rw [rb_fold_split rest fs1 acc1]
          have hone : acc1.restored.length + acc1.errors.length = 1 := by
            have h1 := rollbackStep_one e fs
            rw [hstep] at h1
            exact h1
          have hrest := ih fs1
          unfold rollbackIntegrations at hrest
          simp only [rbApp, List.length_append, List.length_cons]
          omega

/-- Separation of report entries: within an entry, target and backup differ
and the backup path is non-empty; across entries, all four key pairs differ. -/
def entrySep (es : List IntEntry) : Prop :=
  (∀ e ∈ es, ¬ (e.target = e.backup) ∧ ¬ (e.backup = "")) ∧
  es.Pairwise (fun e e' => ¬(e.target = e'.target) ∧ ¬(e.target = e'.backup) ∧
    ¬(e.backup = e'.target) ∧ ¬(e.backup = e'.backup))

/-- Pointwise behaviour of `rollback_integrations` on a report whose entries
are pairwise separated and whose backups all exist: no errors, every target
restored from its backup, every backup deleted, everything else untouched. -/
theorem rollback_spec (es : List IntEntry) : ∀ fs : FS,
    entrySep es →
    (∀ e ∈ es, (aget fs e.backup).isSome) →
    ((rollbackIntegrations fs es).2.errors = [] ∧
     (∀ e ∈ es, aget (rollbackIntegrations fs es).1 e.target = aget fs e.backup ∧
                aget (rollbackIntegrations fs es).1 e.backup = none) ∧
     (∀ k, (∀ e ∈ es, ¬(k = e.target) ∧ ¬(k = e.backup)) →
        aget (rollbackIntegrations fs es).1 k = aget fs k)) := by
  induction es with
  | nil =>
      intro fs _ _
      exact ⟨rfl, by intro e he; simp at he, by intro k _; rfl⟩
  | cons e rest ih =>
      intro fs hsep hb
      have hbmem := hsep.1 e (List.mem_cons_self e rest)
      obtain ⟨c, hc⟩ := Option.isSome_iff_exists.mp (hb e (List.mem_cons_self e rest))
      have hstep : rollbackStep (fs, ⟨[], []⟩) e =
          (aremove (upsert fs e.target c) e.backup,
           ⟨[(e.target, e.module)], []⟩) := by
        simp only [rollbackStep]
        rw [if_neg hbmem.2, hc]
        simp
      have hC_b : aget (aremove (upsert fs e.target c) e.backup) e.backup = none :=
        aget_aremove_same _ _
      have hC_t : aget (aremove (upsert fs e.target c) e.backup) e.target = some c := by
        rw [aget_aremove_other _ _ _ hbmem.1, aget_upsert_same]
      have hC_frame : ∀ k, ¬(k = e.target) → ¬(k = e.backup) →
          aget (aremove (upsert fs e.target c) e.backup) k = aget fs k := by
        intro k h1 h2
        rw [aget_aremove_other _ _ _ h2, aget_upsert_other _ _ _ _ h1]
      have hpw := List.pairwise_cons.mp hsep.2
      have hsep' : entrySep rest :=
        ⟨fun e' he' => hsep.1 e' (List.mem_cons_of_mem e he'), hpw.2⟩
      have hb' : ∀ e' ∈ rest,
          (aget (aremove (upsert fs e.target c) e.backup) e'.backup).isSome := by
        intro e' he'
        obtain ⟨r1, r2, r3, r4⟩ := hpw.1 e' he'
        rw [hC_frame e'.backup (fun h => r2 h.symm) (fun h => r4 h.symm)]
        exact hb e' (List.mem_cons_of_mem e he')
      obtain ⟨ih1, ih2, ih3⟩ := ih (aremove (upsert fs e.target c) e.backup) hsep' hb'
      have hmain : rollbackIntegrations fs (e :: rest) =
          ((rollbackIntegrations (aremove (upsert fs e.target c) e.backup) rest).1,
           rbApp ⟨[(e.target, e.module)], []⟩
             (rollbackIntegrations (aremove (upsert fs e.target c) e.backup) rest).2) := by
        unfold rollbackIntegrations
        simp only [List.foldl_cons]
        rw [hstep]
        exact rb_fold_split rest _ _
      refine ⟨?_, ?_, ?_⟩
      · rw [hmain]
        simp only [rbApp]
        rw [ih1]
        rfl
      · intro f hf
        rcases List.mem_cons.mp hf with hf | hf
        · subst hf
          constructor
          · rw [hmain]
            have hside : ∀ e' ∈ rest, ¬(f.target = e'.target) ∧ ¬(f.target = e'.backup) := by
              intro e' he'
              obtain ⟨r1, r2, _, _⟩ := hpw.1 e' he'
              exact ⟨r1, r2⟩
            rw [ih3 f.target hside, hC_t, hc]
          · rw [hmain]
            have hside : ∀ e' ∈ rest, ¬(f.backup = e'.target) ∧ ¬(f.backup = e'.backup) := by
              intro e' he'
              obtain ⟨_, _, r3, r4⟩ := hpw.1 e' he'
              exact ⟨r3, r4⟩
            rw [ih3 f.backup hside, hC_b]
        · obtain ⟨t1, t2⟩ := ih2 f hf
          obtain ⟨r1, r2, r3, r4⟩ := hpw.1 f hf
          constructor
          · rw [hmain, t1]
            exact hC_frame f.backup (fun h => r2 h.symm) (fun h => r4 h.symm)
          · rw [hmain]
            exact t2
      · intro k hk
        rw [hmain, ih3 k (fun e' he' => hk e' (List.mem_cons_of_mem e he'))]
        exact hC_frame k (hk e (List.mem_cons_self e rest)).1
          (hk e (List.mem_cons_self e rest)).2

theorem integ_fold_fs (m : String) (ts : List String) (fs : FS) (rep : IntReport) :
    (ts.foldl (integOne m) (fs, rep)).1 =
      (ts.foldl (integOne m) (fs, ⟨[], [], []⟩)).1 := by
  rw [integ_fold_split m ts fs rep]

theorem integ_fold_rep (m : String) (ts : List String) (fs : FS) (rep : IntReport) :
    (ts.foldl (integOne m) (fs, rep)).2 =
      repApp rep (ts.foldl (integOne m) (fs, ⟨[], [], []⟩)).2 := by
  rw [integ_fold_split m ts fs rep]

/-- The entry that a single-module integration pass records for a target, as
a function of the pre-integration state: `none` when the target is missing or
already imports the module, otherwise the `{target, module, backup}` entry. -/
def integTag (fs : FS) (m t : String) : Option IntEntry :=
  match aget fs t with
  | none => none
  | some c => if containsSub c (importLineOf m) then none else some ⟨t, m, bakOf t⟩

/-- Pointwise behaviour of a single-module `_perform_integration` pass over
pairwise-distinct targets, none of which is another target's backup path:
the recorded entries are `integTag` of the original state, integrated targets
get the appended reference and a backup holding their original content,
skipped targets are untouched, and all other paths are untouched. -/
theorem integ_spec (m : String) (ts : List String) : ∀ fs : FS,
    ts.Nodup →
    (∀ t ∈ ts, ∀ u ∈ ts, ¬ (u = bakOf t)) →
    ((ts.foldl (integOne m) (fs, ⟨[], [], []⟩)).2.integrated =
        ts.filterMap (integTag fs m) ∧
     (∀ t ∈ ts, ∀ c, aget fs t = some c → containsSub c (importLineOf m) = false →
        aget (ts.foldl (integOne m) (fs, ⟨[], [], []⟩)).1 t = some (c ++ appLine m) ∧
        aget (ts.foldl (integOne m) (fs, ⟨[], [], []⟩)).1 (bakOf t) = some c) ∧
     (∀ t ∈ ts,
        (aget fs t = none → aget (ts.foldl (integOne m) (fs, ⟨[], [], []⟩)).1 t = none) ∧
        (∀ c, aget fs t = some c → containsSub c (importLineOf m) = true →
          aget (ts.foldl (integOne m) (fs, ⟨[], [], []⟩)).1 t = some c)) ∧
     (∀ k, (∀ t ∈ ts, ¬(k = t) ∧ ¬(k = bakOf t)) →
        aget (ts.foldl (integOne m) (fs, ⟨[], [], []⟩)).1 k = aget fs k)) := by
  induction ts with
  | nil =>
      intro fs _ _
      exact ⟨rfl, by intro t ht; simp at ht, by intro t ht; simp at ht,
        by intro k _; rfl⟩
  | cons t ts ih =>
      intro fs hnd hsep
      obtain ⟨htn, hnd'⟩ := List.nodup_cons.mp hnd
      have hsep' : ∀ u ∈ ts, ∀ v ∈ ts, ¬ (v = bakOf u) := fun u hu v hv =>
        hsep u (List.mem_cons_of_mem t hu) v (List.mem_cons_of_mem t hv)
      have hframe_t : ∀ u ∈ ts, ¬(t = u) ∧ ¬(t = bakOf u) := by
        intro u hu
        exact ⟨fun h => htn (h ▸ hu),
          hsep u (List.mem_cons_of_mem t hu) t (List.mem_cons_self t ts)⟩
      simp only [List.foldl_cons]
      cases hft : aget fs t with
      | none =>
          have hstep : integOne m (fs, ⟨[], [], []⟩) t =
              (fs, ⟨[], [⟨t, "missing"⟩], []⟩) := by
            simp [integOne, hft]
          rw [hstep]
          obtain ⟨ih1, ih2, ih3, ih4⟩ := ih fs hnd' hsep'
          refine ⟨?_, ?_, ?_, ?_⟩
          · rw [integ_fold_rep m ts fs ⟨[], [⟨t, "missing"⟩], []⟩]
            simp only [repApp]
            rw [ih1, List.filterMap_cons_none (by simp [integTag, hft])]
            simp
          · intro u hu c hc hcont
            rw [integ_fold_fs m ts fs ⟨[], [⟨t, "missing"⟩], []⟩]
            rcases List.mem_cons.mp hu with hu | hu
            · subst hu; rw [hft] at hc; exact absurd hc (by simp)
            · exact ih2 u hu c hc hcont
          · intro u hu
            rw [integ_fold_fs m ts fs ⟨[], [⟨t, "missing"⟩], []⟩]
            rcases List.mem_cons.mp hu with hu | hu
            · subst hu
              refine ⟨fun _ => ?_, fun c hc _ => ?_⟩
              · rw [ih4 u hframe_t]; exact hft
              · rw [hft] at hc; exact absurd hc (by simp)
            · exact ih3 u hu
          · intro k hk
            rw [integ_fold_fs m ts fs ⟨[], [⟨t, "missing"⟩], []⟩]
            exact ih4 k (fun u hu => hk u (List.mem_cons_of_mem t hu))
      | some c =>
          by_cases hcont : containsSub c (importLineOf m) = true
          · have hstep : integOne m (fs, ⟨[], [], []⟩) t =
                (fs, ⟨[], [⟨t, "already_imported"⟩], []⟩) := by
              simp [integOne, hft, hcont]
            rw [hstep]
            obtain ⟨ih1, ih2, ih3, ih4⟩ := ih fs hnd' hsep'
            refine ⟨?_, ?_, ?_, ?_⟩
            · rw [integ_fold_rep m ts fs ⟨[], [⟨t, "already_imported"⟩], []⟩]
              simp only [repApp]
              rw [ih1, List.filterMap_cons_none (by simp [integTag, hft, hcont])]
              simp
            · intro u hu c' hc' hcont'
              rw [integ_fold_fs m ts fs ⟨[], [⟨t, "already_imported"⟩], []⟩]
              rcases List.mem_cons.mp hu with hu | hu
              · subst hu
                rw [hft] at hc'
                rw [Option.some.inj hc'] at hcont
                rw [hcont] at hcont'
                exact absurd hcont' (by simp)
              · exact ih2 u hu c' hc' hcont'
            · intro u hu
              rw [integ_fold_fs m ts fs ⟨[], [⟨t, "already_imported"⟩], []⟩]
              rcases List.mem_cons.mp hu with hu | hu
              · subst hu
                refine ⟨fun hnone => ?_, fun c' hc' _ => ?_⟩
                · rw [hft] at hnone; exact absurd hnone (by simp)
                · rw [ih4 u hframe_t, hc']
              · exact ih3 u hu
            · intro k hk
              rw [integ_fold_fs m ts fs ⟨[], [⟨t, "already_imported"⟩], []⟩]
              exact ih4 k (fun u hu => hk u (List.mem_cons_of_mem t hu))
          · rw [Bool.not_eq_true] at hcont
            have hstep : integOne m (fs, ⟨[], [], []⟩) t =
                (upsert (upsert fs (bakOf t) c) t (c ++ appLine m),
                 ⟨[⟨t, m, bakOf t⟩], [], []⟩) := by
              simp [integOne, hft, hcont, bakOf, appLine, String.append_assoc]
            rw [hstep]
            obtain ⟨ih1, ih2, ih3, ih4⟩ :=
              ih (upsert (upsert fs (bakOf t) c) t (c ++ appLine m)) hnd' hsep'
            have hA_t : aget (upsert (upsert fs (bakOf t) c) t (c ++ appLine m)) t =
                some (c ++ appLine m) := aget_upsert_same _ _ _
            have hA_b : aget (upsert (upsert fs (bakOf t) c) t (c ++ appLine m))
                (bakOf t) = some c := by
              rw [aget_upsert_other _ _ _ _ (fun h => bak_ne_self t h.symm),
                aget_upsert_same]
            have hA_frame : ∀ k, ¬(k = t) → ¬(k = bakOf t) →
                aget (upsert (upsert fs (bakOf t) c) t (c ++ appLine m)) k =
                  aget fs k := by
              intro k h1 h2
              rw [aget_upsert_other _ _ _ _ h1, aget_upsert_other _ _ _ _ h2]
            have hAeq : ∀ u ∈ ts,
                aget (upsert (upsert fs (bakOf t) c) t (c ++ appLine m)) u =
                  aget fs u := by
              intro u hu
              exact hA_frame u (fun h => htn (h ▸ hu))
                (hsep t (List.mem_cons_self t ts) u (List.mem_cons_of_mem t hu))
            have hframe_b : ∀ u ∈ ts, ¬(bakOf t = u) ∧ ¬(bakOf t = bakOf u) := by
              intro u hu
              refine ⟨fun h => hsep t (List.mem_cons_self t ts) u
                (List.mem_cons_of_mem t hu) h.symm, fun h => ?_⟩
              exact htn (bak_inj t u h ▸ hu)
            refine ⟨?_, ?_, ?_, ?_⟩
            · rw [integ_fold_rep m ts _ ⟨[⟨t, m, bakOf t⟩], [], []⟩]
              simp only [repApp]
              have htag : integTag fs m t = some ⟨t, m, bakOf t⟩ := by
                simp [integTag, hft, hcont]
              rw [ih1, List.filterMap_cons_some htag]
              simp only [List.nil_append, List.singleton_append]
              congr 1
              exact List.filterMap_congr (fun u hu => by
                simp only [integTag, hAeq u hu])
            · intro u hu c' hc' hcont'
              rw [integ_fold_fs m ts _ ⟨[⟨t, m, bakOf t⟩], [], []⟩]
              rcases List.mem_cons.mp hu with hu | hu
              · subst hu
                rw [hft] at hc'
                have hcc : c = c' := Option.some.inj hc'
                subst hcc
                constructor
                · rw [ih4 u hframe_t]; exact hA_t
                · rw [ih4 (bakOf u) hframe_b]; exact hA_b
              · obtain ⟨w1, w2⟩ := ih2 u hu c' (by rw [hAeq u hu]; exact hc') hcont'
                exact ⟨w1, w2⟩
            · intro u hu
              rw [integ_fold_fs m ts _ ⟨[⟨t, m, bakOf t⟩], [], []⟩]
              rcases List.mem_cons.mp hu with hu | hu
              · subst hu
                refine ⟨fun hnone => ?_, fun c' hc' hcont' => ?_⟩
                · rw [hft] at hnone; exact absurd hnone (by simp)
                · rw [hft] at hc'
                  rw [← Option.some.inj hc'] at hcont'
                  rw [hcont] at hcont'
                  exact absurd hcont' (by simp)
              · obtain ⟨w1, w2⟩ := ih3 u hu
                refine ⟨fun hnone => w1 (by rw [hAeq u hu]; exact hnone),
                  fun c' hc' hcont' => w2 c' (by rw [hAeq u hu]; exact hc') hcont'⟩
            · intro k hk
              rw [integ_fold_fs m ts _ ⟨[⟨t, m, bakOf t⟩], [], []⟩]
              rw [ih4 k (fun u hu => hk u (List.mem_cons_of_mem t hu))]
              exact hA_frame k (hk t (List.mem_cons_self t ts)).1
                (hk t (List.mem_cons_self t ts)).2

theorem integTag_shape (fs : FS) (m t : String) (e : IntEntry)
    (h : integTag fs m t = some e) :
    e.target = t ∧ e.backup = bakOf t ∧
    ∃ c, aget fs t = some c ∧ containsSub c (importLineOf m) = false := by
  unfold integTag at h
  split at h
  · exact absurd h (by simp)
  · rename_i c hft
    split at h
    · exact absurd h (by simp)
    · rename_i hc
      rw [← Option.some.inj h]
      exact ⟨rfl, rfl, c, hft, by simpa using hc⟩

/-- C5 counterexample: two generated modules integrated into the one target
`t.py` share the single backup path `t.py.codexbak`; the second backup
overwrites the first, so rollback on the successful report leaves `t.py`
holding the intermediate content (with the first module's import line), not
its pre-integration byte content `x` — while one entry was still restored and
the other was recorded as a `backup_missing` error without aborting. -/
theorem rollback_not_byte_identical :
    aget [(("t.py"), "x")] ("t.py") = some ("x") ∧
    aget (rollbackIntegrations
        (performIntegration [(("t.py"), "x")] [("m1"), ("m2")] [("t.py")]).1
        (performIntegration [(("t.py"), "x")] [("m1"), ("m2")]
          [("t.py")]).2.integrated).1 ("t.py") =
      some ("x\n# Integrated generated module\nfrom app.generated import m1\n") ∧
    ¬ (aget (rollbackIntegrations
        (performIntegration [(("t.py"), "x")] [("m1"), ("m2")] [("t.py")]).1
        (performIntegration [(("t.py"), "x")] [("m1"), ("m2")]
          [("t.py")]).2.integrated).1 ("t.py") = some ("x")) ∧
    (rollbackIntegrations
        (performIntegration [(("t.py"), "x")] [("m1"), ("m2")] [("t.py")]).1
        (performIntegration [(("t.py"), "x")] [("m1"), ("m2")]
          [("t.py")]).2.integrated).2.restored = [(("t.py"), ("m1"))] ∧
    (rollbackIntegrations
        (performIntegration [(("t.py"), "x")] [("m1"), ("m2")] [("t.py")]).1
        (performIntegration [(("t.py"), "x")] [("m1"), ("m2")]
          [("t.py")]).2.integrated).2.errors =
      [(("t.py"), ("m2"), ("backup_missing"))] := by
  decide

/-- C5 (amended): for an integration pass of a single generated module over
pairwise-distinct targets none of which is another target's backup path,
rollback on the produced report restores every target byte-identical to its
pre-integration content, deletes every recorded backup, and reports no
errors; and in general rollback never aborts — every entry of any report
lands in either `restored` or `errors` (missing backups become
`backup_missing` errors, as the counterexample exhibits concretely). -/
theorem rollback_restores_single_module (m : String) (ts : List String) (fs : FS)
    (hnd : ts.Nodup) (hsep : ∀ t ∈ ts, ∀ u ∈ ts, ¬ (u = bakOf t)) :
    ((rollbackIntegrations (performIntegration fs [m] ts).1
        (performIntegration fs [m] ts).2.integrated).2.errors = [] ∧
     (∀ t ∈ ts, aget (rollbackIntegrations (performIntegration fs [m] ts).1
        (performIntegration fs [m] ts).2.integrated).1 t = aget fs t) ∧
     (∀ e ∈ (performIntegration fs [m] ts).2.integrated,
        aget (rollbackIntegrations (performIntegration fs [m] ts).1
          (performIntegration fs [m] ts).2.integrated).1 e.backup = none) ∧
     (∀ (fs' : FS) (es : List IntEntry),
        (rollbackIntegrations fs' es).2.restored.length +
          (rollbackIntegrations fs' es).2.errors.length = es.length)) := by
  have hperf : performIntegration fs [m] ts =
      ts.foldl (integOne m) (fs, ⟨[], [], []⟩) := rfl
  rw [hperf]
  obtain ⟨h1, h2, h3, h4⟩ := integ_spec m ts fs hnd hsep
  rw [h1]
  have hES : entrySep (ts.filterMap (integTag fs m)) := by
    constructor
    · intro e he
      obtain ⟨t, ht, htag⟩ := List.mem_filterMap.mp he
      obtain ⟨het, heb, _⟩ := integTag_shape fs m t e htag
      rw [het, heb]
      exact ⟨bak_ne_self t, bak_ne_empty t⟩
    · apply List.pairwise_filterMap.mpr
      refine List.Pairwise.imp_of_mem ?_ hnd
      intro a b ha hb hab x hx y hy
      have hxa := integTag_shape fs m a x (Option.mem_def.mp hx)
      have hyb := integTag_shape fs m b y (Option.mem_def.mp hy)
      rw [hxa.1, hxa.2.1, hyb.1, hyb.2.1]
      refine ⟨hab, hsep b hb a ha, fun h => hsep a ha b hb h.symm, fun h => ?_⟩
      exact hab (bak_inj a b h)
  have hbk : ∀ e ∈ ts.filterMap (integTag fs m),
      (aget (ts.foldl (integOne m) (fs, ⟨[], [], []⟩)).1 e.backup).isSome := by
    intro e he
    obtain ⟨t, ht, htag⟩ := List.mem_filterMap.mp he
    obtain ⟨_, heb, c, hft, hcont⟩ := integTag_shape fs m t e htag
    rw [heb, (h2 t ht c hft hcont).2]
    rfl
  obtain ⟨r1, r2, r3⟩ :=
    rollback_spec (ts.filterMap (integTag fs m))
      (ts.foldl (integOne m) (fs, ⟨[], [], []⟩)).1 hES hbk
  refine ⟨r1, ?_, fun e he => (r2 e he).2, fun fs' es =>
    rollback_processes_every_entry es fs'⟩
  intro t ht
  cases htag : integTag fs m t with
  | some e =>
      have he : e ∈ ts.filterMap (integTag fs m) :=
        List.mem_filterMap.mpr ⟨t, ht, htag⟩
      obtain ⟨het, heb, c, hft, hcont⟩ := integTag_shape fs m t e htag
      have := (r2 e he).1
      rw [het, heb] at this
      rw [this, (h2 t ht c hft hcont).2, hft]
  | none =>
      have hkfree : ∀ e ∈ ts.filterMap (integTag fs m),
          ¬(t = e.target) ∧ ¬(t = e.backup) := by
        intro e he
        obtain ⟨u, hu, hutag⟩ := List.mem_filterMap.mp he
        obtain ⟨het, heb, _⟩ := integTag_shape fs m u e hutag
        constructor
        · intro h
          rw [het] at h
          rw [h] at htag
          rw [htag] at hutag
          exact absurd hutag (by simp)
        · intro h
          rw [heb] at h
          exact hsep u hu t ht h
      rw [r3 t hkfree]
      cases hft : aget fs t with
      | none =>
          rw [(h3 t ht).1 hft]
      | some c =>
          by_cases hcont : containsSub c (importLineOf m) = true
          · rw [(h3 t ht).2 c hft hcont]
          · have hcf : containsSub c (importLineOf m) = false := by
              simpa using hcont
            have htw : integTag fs m t = some ⟨t, m, bakOf t⟩ := by
              simp [integTag, hft, hcf]
            rw [htag] at htw
            exact absurd htw (by simp)

/-- Witness for C5's amended claim: one module `m1` integrated into the single
target `t.py`; rollback reports no errors and brings `t.py` back to its
original content. -/
theorem rollback_restores_single_module_witness :
    (rollbackIntegrations
        (performIntegration [(("t.py"), "x")] [("m1")] [("t.py")]).1
        (performIntegration [(("t.py"), "x")] [("m1")]
          [("t.py")]).2.integrated).2.errors = [] ∧
    aget (rollbackIntegrations
        (performIntegration [(("t.py"), "x")] [("m1")] [("t.py")]).1
        (performIntegration [(("t.py"), "x")] [("m1")]
          [("t.py")]).2.integrated).1 ("t.py") = aget [(("t.py"), "x")] ("t.py") :=
  ⟨(rollback_restores_single_module ("m1") [("t.py")] [(("t.py"), "x")]
      (by decide) (by decide)).1,
   (rollback_restores_single_module ("m1") [("t.py")] [(("t.py"), "x")]
      (by decide) (by decide)).2.1 ("t.py") (by decide)⟩

end ProjectAI
